import Mathlib

/-!
Shallow embedding of the cluster state engine of `src/src/App.tsx`
(a Kafka-like metadata simulator): topology building, leader election,
producer partition routing, and consumer-group rebalancing/consumption.

JavaScript numbers that the program only ever uses as non-negative
integers (partition indices, offsets) are embedded as `Nat`; the hash
accumulator, which is forced to a signed 32-bit integer by `| 0`, is
embedded as `Int` with an explicit wrap.  String keys are embedded as
`String`; a produce/hash key is embedded as its list of UTF-16 code
units (`List Nat`), since the source reads it only through
`charCodeAt` and emptiness tests.  JavaScript objects used as string
keyed maps (`Record<string, T>`) are embedded as association lists in
insertion order, with JS property-set semantics (`setKey`).
-/

namespace Kafka

/-- JS `x | 0`: conversion to a signed 32-bit integer (wrap modulo 2^32
into the range [-2^31, 2^31)). -/
def toInt32 (x : Int) : Int := (x + 2 ^ 31) % 2 ^ 32 - 2 ^ 31

/-- Embedding of `hashKeyToPartition` (App.tsx line 60): polynomial rolling
hash `h = (h * 31 + key.charCodeAt(i)) | 0`, then `Math.abs(h) % partitions`.
The key is given as its list of UTF-16 code units. -/
def hashKeyToPartition (key : List Nat) (partitions : Nat) : Nat :=
  let h := key.foldl (fun (h : Int) (c : Nat) => toInt32 (h * 31 + (c : Int))) 0
  h.natAbs % partitions

/-- The rolling hash accumulator on its own (the value `h` after the loop). -/
def hashLoop (key : List Nat) : Int :=
  key.foldl (fun (h : Int) (c : Nat) => toInt32 (h * 31 + (c : Int))) 0

structure Broker where
  id : String
  name : String
  up : Bool
deriving DecidableEq

structure Partition where
  id : Nat
  topic : String
  leader : Option String
  replicas : List String
  offline : Bool
  endOffset : Nat
deriving DecidableEq

structure Topic where
  name : String
  partitions : List Partition
  color : String
deriving DecidableEq

structure Cluster where
  brokers : List Broker
  topics : List Topic
deriving DecidableEq

structure Consumer where
  id : String
deriving DecidableEq

/-- A JS object used as a string-keyed map, in property insertion order. -/
abbrev Record (V : Type) := List (String × V)

/-- Reading `r[k]`: the value of the (unique) binding of `k`, if present. -/
def getKey {V : Type} (r : Record V) (k : String) : Option V :=
  (r.find? (fun e => e.1 == k)).map (fun e => e.2)

/-- JS property assignment `r[k] = v`: overwrite the existing binding in
place if `k` is present, otherwise append a new binding. -/
def setKey {V : Type} (r : Record V) (k : String) (v : V) : Record V :=
  if r.any (fun e => e.1 == k) then
    r.map (fun e => if e.1 == k then (k, v) else e)
  else r ++ [(k, v)]

structure ConsumerGroup where
  id : String
  members : List Consumer
  assignments : Record String
  offsets : Record Nat
deriving DecidableEq

/-- One entry of the `topicsConfig` argument of `buildCluster`.  The counts
are JS numbers that the UI normally clamps, but `buildCluster` itself
accepts any integers, so they are embedded as `Int`. -/
structure TopicConfig where
  name : String
  partitions : Int
  replicationFactor : Int
deriving DecidableEq

/-- The color palette (App.tsx line 49). -/
def PALETTE : List String :=
  ["#22c55e", "#3b82f6", "#eab308", "#ef4444",
   "#a855f7", "#06b6d4", "#f97316", "#84cc16"]

/-- Broker `i` as created by `buildCluster`: id `b${i}`, name `broker-${i}`,
initially up. -/
def mkBroker (i : Nat) : Broker :=
  { id := "b" ++ Nat.repr i, name := "broker-" ++ Nat.repr i, up := true }

/-- The broker array of `buildCluster`: `brokerCount` brokers, all up. -/
def buildBrokers (brokerCount : Nat) : List Broker :=
  (List.range brokerCount).map mkBroker

/-- One partition as built inside `buildCluster` (App.tsx lines 78-89):
round-robin preferred leader `p % brokerCount`, then `rf` consecutive
broker indices wrapping modulo `brokerCount`.  `brokers[ri]` is embedded
as `List.getD`; the index `ri` is always `_ % brokerCount`, in range
whenever `brokerCount ≥ 1` (for `brokerCount = 0` the JS source divides
by zero and faults, a state no claim quantifies over). -/
def buildPartition (brokerCount : Nat) (brokers : List Broker) (rf : Nat)
    (tname : String) (p : Nat) : Partition :=
  let leaderIdx := p % brokerCount
  let replicaIdxs := (List.range rf).map (fun k => (leaderIdx + k) % brokerCount)
  let replicas := replicaIdxs.map (fun ri => (brokers.getD ri (mkBroker ri)).id)
  { id := p, topic := tname, leader := replicas.head?, replicas := replicas,
    offline := false, endOffset := 0 }

/-- One topic as built inside `buildCluster` (App.tsx lines 76-91):
`rf` is `Math.max(1, Math.min(replicationFactor, brokerCount))`; the
partition count is NOT clamped (`Array.from` with a negative length
yields an empty array, hence `Int.toNat`). -/
def buildTopic (brokerCount : Nat) (brokers : List Broker) (idx : Nat)
    (t : TopicConfig) : Topic :=
  let rf := (max 1 (min t.replicationFactor (brokerCount : Int))).toNat
  let parts := (List.range t.partitions.toNat).map
    (buildPartition brokerCount brokers rf t.name)
  { name := t.name, partitions := parts,
    color := PALETTE.getD (idx % PALETTE.length) "" }

/-- Embedding of `buildCluster` (App.tsx line 66). -/
def buildCluster (brokerCount : Nat) (topicsConfig : List TopicConfig) : Cluster :=
  let brokers := buildBrokers brokerCount
  let topics := topicsConfig.enum.map (fun it =>
    buildTopic brokerCount brokers it.1 it.2)
  { brokers := brokers, topics := topics }

/-- JS falsiness of a `string | null` value: `null` and `""` are falsy. -/
def jsFalsyStr : Option String → Bool
  | none => true
  | some s => s == ""

/-- The election step of `electLeaders` on one partition, given the set of
ids of brokers that are up.  `p.leader && upSet.has(p.leader)` is truthy
iff the leader is a non-null, non-empty string in the set; `p.offline =
!p.leader` marks the partition offline iff the new leader is falsy. -/
def electPartition (upSet : List String) (p : Partition) : Partition :=
  let aliveReplicas := p.replicas.filter (fun r => upSet.contains r)
  let hasLeaderAlive :=
    match p.leader with
    | none => false
    | some l => !(l == "") && upSet.contains l
  let newLeader := if hasLeaderAlive then p.leader else aliveReplicas.head?
  { p with leader := newLeader, offline := jsFalsyStr newLeader }

/-- Embedding of `electLeaders` (App.tsx line 107): recompute every
partition's leader and offline flag from the current broker up-flags. -/
def electLeaders (c : Cluster) : Cluster :=
  let upSet := (c.brokers.filter (fun b => b.up)).map (fun b => b.id)
  { c with topics := c.topics.map (fun t =>
      { t with partitions := t.partitions.map (electPartition upSet) }) }

/-- Embedding of `partitionKey` (App.tsx line 149): `${t}:p${p}`. -/
def partitionKey (t : String) (p : Nat) : String :=
  t ++ ":p" ++ Nat.repr p

/-- The ids of the brokers of `c` that are up (the `upSet` of
`electLeaders`). -/
def upIds (c : Cluster) : List String :=
  (c.brokers.filter (fun b => b.up)).map (fun b => b.id)

/-- Embedding of `rebalanceGroup` (App.tsx line 153): enumerate the keys of
all partitions of all topics in order, then round-robin assign the i-th key
to member `i % memberCount`; with no members, clear the assignments. -/
def rebalanceGroup (g : ConsumerGroup) (topics : List Topic) : ConsumerGroup :=
  let allParts := (topics.map (fun t =>
    t.partitions.map (fun p => partitionKey t.name p.id))).flatten
  if g.members.length == 0 then { g with assignments := [] }
  else
    { g with assignments :=
        allParts.enum.foldl (fun asg ipk =>
          setKey asg ipk.2
            ((g.members.getD (ipk.1 % g.members.length) { id := "" }).id)) [] }

/-- The enumeration of partition keys that `rebalanceGroup` (and the
consume loop) walks: topic list order, then partition order within a
topic. -/
def allPartKeys (topics : List Topic) : List String :=
  (topics.map (fun t => t.partitions.map (fun p => partitionKey t.name p.id))).flatten

/-- The body of the per-partition consume loop of `consumeOnce` (App.tsx
line 328): skip if the assignment is absent or falsy, else bump the
committed offset (defaulted to 0 by `|| 0`) when strictly below the
partition's `endOffset`. -/
def consumePart (asg : Record String) (tname : String) (p : Partition)
    (offs : Record Nat) : Record Nat :=
  let pk := partitionKey tname p.id
  match getKey asg pk with
  | none => offs
  | some a =>
    if a == "" then offs
    else
      let committed := (getKey offs pk).getD 0
      if committed < p.endOffset then setKey offs pk (committed + 1) else offs

/-- Embedding of `consumeOnce` (App.tsx line 322) for one group: fold the
consume step over every partition of every topic, in order. -/
def consumeOnce (g : ConsumerGroup) (topics : List Topic) : ConsumerGroup :=
  { g with offsets :=
      topics.foldl (fun offs t =>
        t.partitions.foldl (fun offs p => consumePart g.assignments t.name p offs)
          offs) g.offsets }

/-- Replace the element at index `i`, if any (out of range: unchanged; the
JS source would instead fault on an out-of-range index, a state no claim
quantifies over). -/
def modifyIdx {α : Type} (f : α → α) : Nat → List α → List α
  | _, [] => []
  | 0, x :: xs => f x :: xs
  | n + 1, x :: xs => x :: modifyIdx f n xs

/-- Replace the first element satisfying `q`, if any: the in-place mutation
of the topic object found by `find` in `produce`. -/
def modifyFirst {α : Type} (q : α → Bool) (f : α → α) : List α → List α
  | [] => []
  | x :: xs => if q x then f x :: xs else x :: modifyFirst q f xs

/-- Bump a partition's end offset by one (`part.endOffset += 1`). -/
def bumpEndOffset (p : Partition) : Partition :=
  { p with endOffset := p.endOffset + 1 }

/-- The partition index `produce` selects: the hash of a non-empty key,
otherwise the random draw (`rnd` stands for `Math.floor(Math.random() *
pCount)`, an arbitrary environment-supplied number in `[0, pCount)`). -/
def producePid (key : List Nat) (pCount rnd : Nat) : Nat :=
  if key.length != 0 then hashKeyToPartition key pCount else rnd

/-- The in-place mutation `part.endOffset += 1` of the found topic, as a
function on the topic. -/
def bumpTopicAt (pid : Nat) (tt : Topic) : Topic :=
  { tt with partitions := modifyIdx bumpEndOffset pid tt.partitions }

/-- Embedding of `produce` (App.tsx line 308).  The key is the produce
key's UTF-16 code units, `[]` for the empty key (JS falsy, taking the
random branch).  If the topic is absent the whole cluster is returned
unchanged. -/
def produce (c : Cluster) (topicName : String) (key : List Nat) (rnd : Nat) : Cluster :=
  match c.topics.find? (fun t => t.name == topicName) with
  | none => c
  | some t =>
    let pCount := t.partitions.length
    let pid := producePid key pCount rnd
    { c with topics :=
        modifyFirst (fun x => x.name == topicName) (bumpTopicAt pid) c.topics }

/-- Well-formedness of a cluster as maintained by the program: every
replica id is a non-empty string and every non-null leader is listed among
its partition's replicas.  `buildCluster` establishes this and every
operation preserves it. -/
def clusterWF (c : Cluster) : Bool :=
  c.topics.all (fun t => t.partitions.all (fun p =>
    p.replicas.all (fun r => !(r == "")) &&
    (match p.leader with
     | none => true
     | some l => p.replicas.contains l)))

/-- A partition with leader and offline fields blanked: two partitions are
equal after `stripElect` iff they agree on everything except the two
fields that `electLeaders` recomputes. -/
def stripElect (p : Partition) : Partition :=
  { p with leader := none, offline := false }

/-- A topic with every partition's leader and offline fields blanked. -/
def stripElectTopic (t : Topic) : Topic :=
  { t with partitions := t.partitions.map stripElect }

/-- A cluster with every partition's end offset blanked: two clusters are
equal after `stripOffsets` iff they agree on everything except end
offsets. -/
def stripOffsets (c : Cluster) : Cluster :=
  { c with topics := c.topics.map (fun t =>
      { t with partitions := t.partitions.map (fun p => { p with endOffset := 0 }) }) }

/-- The end offset of partition `i` of topic `j` of `c` (0 when out of
range). -/
def endOffsetAt (c : Cluster) (j i : Nat) : Nat :=
  (((c.topics.getD j { name := "", partitions := [], color := "" }).partitions.getD
    i { id := 0, topic := "", leader := none, replicas := [], offline := false,
        endOffset := 0 })).endOffset

/-- The enumeration of `(topicName, partition)` pairs that the consume
loop of `consumeOnce` walks, in order. -/
def allPairs (topics : List Topic) : List (String × Partition) :=
  (topics.map (fun t => t.partitions.map (fun p => (t.name, p)))).flatten

/-- The value of one committed-offset cell after the consume step, as a
function of the assignment value, the current cell and the partition's
end offset (the body of `consumePart` at its own key). -/
def stepVal (asgv : Option String) (cur : Option Nat) (endO : Nat) : Option Nat :=
  match asgv with
  | none => cur
  | some a =>
    if a == "" then cur
    else if cur.getD 0 < endO then some (cur.getD 0 + 1) else cur

/-- Concrete well-formed cluster used to witness the election theorems:
three brokers with `b0` down, one topic with a single partition whose
replicas are `[b0, b1, b2]` and whose current leader is `b0`. -/
def electWitnessCluster : Cluster :=
  { brokers := [{ id := "b0", name := "broker-0", up := false },
                { id := "b1", name := "broker-1", up := true },
                { id := "b2", name := "broker-2", up := true }],
    topics := [{ name := "t",
                 partitions := [{ id := 0, topic := "t", leader := some "b0",
                                  replicas := ["b0", "b1", "b2"], offline := false,
                                  endOffset := 0 }],
                 color := "#22c55e" }] }

/-- Concrete group (two members) used to witness the rebalance theorem. -/
def rebWitnessGroup : ConsumerGroup :=
  { id := "g1", members := [{ id := "c1" }, { id := "c2" }],
    assignments := [], offsets := [] }

/-- Concrete topics (one topic, three partitions) used to witness the
rebalance theorem. -/
def rebWitnessTopics : List Topic :=
  (buildCluster 3 [{ name := "t", partitions := 3, replicationFactor := 2 }]).topics

/-- Concrete group used to witness the consume theorem: one member owning
partition `t:p0`, no committed offsets yet. -/
def conWitnessGroup : ConsumerGroup :=
  { id := "g1", members := [{ id := "c1" }],
    assignments := [("t:p0", "c1")], offsets := [] }

/-- Concrete topics used to witness the consume theorem: one topic with
two partitions, `p0` with end offset 5 (assigned) and `p1` with end
offset 2 (unassigned). -/
def conWitnessTopics : List Topic :=
  [{ name := "t",
     partitions := [{ id := 0, topic := "t", leader := some "b0",
                      replicas := ["b0"], offline := false, endOffset := 5 },
                    { id := 1, topic := "t", leader := some "b0",
                      replicas := ["b0"], offline := false, endOffset := 2 }],
     color := "#22c55e" }]

/-- Concrete cluster used to witness the produce theorem. -/
def prodWitnessCluster : Cluster :=
  buildCluster 3 [{ name := "t", partitions := 3, replicationFactor := 2 }]

/-! Injectivity of the decimal rendering `Nat.repr`, needed to tell the
broker ids `b0`, `b1`, … apart. -/

lemma digitChar_inj {a b : Nat} (ha : a < 10) (hb : b < 10)
    (h : Nat.digitChar a = Nat.digitChar b) : a = b := by
  interval_cases a <;> interval_cases b <;> revert h <;> decide

lemma toDigitsCore_eq_digits :
    ∀ (fuel n : Nat) (ds : List Char), 0 < n → n ≤ fuel →
      Nat.toDigitsCore 10 fuel n ds
        = ((Nat.digits 10 n).map Nat.digitChar).reverse ++ ds := by
  intro fuel
  induction fuel with
  | zero => intro n ds hn hf; omega
  | succ f ih =>
    intro n ds hn hf
    rw [Nat.toDigitsCore]
    have hd : Nat.digits 10 n = n % 10 :: Nat.digits 10 (n / 10) :=
      Nat.digits_def' (by norm_num) hn
    by_cases h0 : n / 10 = 0
    · simp only [h0, if_pos]
      rw [hd, h0]
      simp
    · simp only [h0, if_neg]
      have hlt : n / 10 < n := Nat.div_lt_self hn (by norm_num)
      rw [ih (n / 10) (Nat.digitChar (n % 10) :: ds) (Nat.pos_of_ne_zero h0) (by omega)]
      rw [hd]
      simp

lemma repr_eq_of_pos {n : Nat} (hn : 0 < n) :
    Nat.repr n = (((Nat.digits 10 n).map Nat.digitChar).reverse).asString := by
  show (Nat.toDigits 10 n).asString = _
  unfold Nat.toDigits
  rw [toDigitsCore_eq_digits (n + 1) n [] hn (Nat.le_succ n), List.append_nil]

lemma map_digitChar_inj :
    ∀ (l₁ l₂ : List Nat), (∀ x ∈ l₁, x < 10) → (∀ x ∈ l₂, x < 10) →
      l₁.map Nat.digitChar = l₂.map Nat.digitChar → l₁ = l₂ := by
  intro l₁
  induction l₁ with
  | nil => intro l₂ _ _ h; cases l₂ <;> simp_all
  | cons a l ih =>
    intro l₂ h₁ h₂ h
    cases l₂ with
    | nil => simp_all
    | cons b l' =>
      simp only [List.map_cons, List.cons.injEq] at h
      have ha : a = b := digitChar_inj (h₁ a (by simp)) (h₂ b (by simp)) h.1
      have : l = l' := ih l' (fun x hx => h₁ x (by simp [hx]))
        (fun x hx => h₂ x (by simp [hx])) h.2
      simp [ha, this]

lemma repr_pos_ne_zero_repr {n : Nat} (hn : 0 < n) : Nat.repr n ≠ Nat.repr 0 := by
  intro h
  rw [repr_eq_of_pos hn] at h
  have h0 : Nat.repr 0 = (['0'] : List Char).asString := rfl
  rw [h0, List.asString_inj] at h
  have hrev : (Nat.digits 10 n).map Nat.digitChar = ['0'] := by
    have := congrArg List.reverse h
    simpa using this
  rcases hm : Nat.digits 10 n with _ | ⟨d, rest⟩
  · rw [hm] at hrev; simp at hrev
  · rw [hm] at hrev
    rcases rest with _ | ⟨e, rest'⟩
    · simp only [List.map_cons, List.map_nil, List.cons.injEq] at hrev
      have hd10 : d < 10 := Nat.digits_lt_base (by norm_num) (by rw [hm]; simp)
      have hd0 : d = 0 := digitChar_inj hd10 (by norm_num) (by simpa using hrev.1)
      have h4 := Nat.ofDigits_digits 10 n
      rw [hm, hd0] at h4
      simp [Nat.ofDigits] at h4
      omega
    · simp at hrev

lemma nat_repr_inj {m n : Nat} (h : Nat.repr m = Nat.repr n) : m = n := by
  rcases Nat.eq_zero_or_pos m with hm | hm
  · rcases Nat.eq_zero_or_pos n with hn | hn
    · omega
    · exact absurd h.symm (by rw [hm]; exact repr_pos_ne_zero_repr hn)
  · rcases Nat.eq_zero_or_pos n with hn | hn
    · exact absurd h (by rw [hn]; exact repr_pos_ne_zero_repr hm)
    · rw [repr_eq_of_pos hm, repr_eq_of_pos hn, List.asString_inj] at h
      have h2 : (Nat.digits 10 m).map Nat.digitChar = (Nat.digits 10 n).map Nat.digitChar := by
        have := congrArg List.reverse h
        simpa using this
      have h3 : Nat.digits 10 m = Nat.digits 10 n :=
        map_digitChar_inj _ _
          (fun x hx => Nat.digits_lt_base (by norm_num) hx)
          (fun x hx => Nat.digits_lt_base (by norm_num) hx) h2
      have := congrArg (Nat.ofDigits 10) h3
      rwa [Nat.ofDigits_digits, Nat.ofDigits_digits] at this

lemma mkBroker_id_inj {i j : Nat} (h : (mkBroker i).id = (mkBroker j).id) : i = j := by
  simp only [mkBroker] at h
  have h2 : "b".data ++ (Nat.repr i).data = "b".data ++ (Nat.repr j).data := by
    have := congrArg String.data h
    simpa using this
  exact nat_repr_inj (String.ext (List.append_cancel_left h2))

/-! Lemmas about the JS object operations `getKey` and `setKey`. -/

lemma mem_of_head?_eq_some {α : Type} {l : List α} {a : α} (h : l.head? = some a) :
    a ∈ l := by
  cases l <;> simp_all

lemma find?_map_replace_self {V : Type} (k : String) (v : V) (r : Record V)
    (h : r.any (fun e => e.1 == k) = true) :
    ((r.map (fun e => if e.1 == k then (k, v) else e)).find? (fun e => e.1 == k))
      = some (k, v) := by
  rw [List.find?_map]
  have hp : ((fun e : String × V => e.1 == k) ∘ (fun e => if e.1 == k then (k, v) else e))
      = (fun e : String × V => e.1 == k) := by
    funext e
    by_cases he : (e.1 == k) = true
    · have h1 : e.1 = k := by simpa using he
      simp [Function.comp, he, h1]
    · simp [Function.comp, he]
  rw [hp]
  have hsome : (r.find? (fun e => e.1 == k)).isSome := by
    rw [List.find?_isSome]
    obtain ⟨x, hx, hpx⟩ := List.any_eq_true.mp h
    exact ⟨x, hx, hpx⟩
  cases hf : r.find? (fun e => e.1 == k) with
  | none => rw [hf] at hsome; simp at hsome
  | some x =>
    have hx := List.find?_some hf
    have hx1 : x.1 = k := by simpa using hx
    simp [hx, hx1]

lemma find?_map_replace_ne {V : Type} (k k' : String) (v : V) (hne : k' ≠ k)
    (r : Record V) :
    ((r.map (fun e => if e.1 == k then (k, v) else e)).find? (fun e => e.1 == k'))
      = r.find? (fun e => e.1 == k') := by
  rw [List.find?_map]
  have hp : ((fun e : String × V => e.1 == k') ∘ (fun e => if e.1 == k then (k, v) else e))
      = (fun e : String × V => e.1 == k') := by
    funext e
    by_cases he : (e.1 == k) = true
    · have h1 : e.1 = k := by simpa using he
      simp [Function.comp, he, h1]
    · simp [Function.comp, he]
  rw [hp]
  cases hf : r.find? (fun e => e.1 == k') with
  | none => simp
  | some x =>
    have hx := List.find?_some hf
    have hx1 : x.1 = k' := by simpa using hx
    have hxk : (x.1 == k) = false := by
      simpa [hx1] using hne
    simp only [Option.map_some']
    rw [if_neg (by simp [hxk])]

lemma getKey_setKey {V : Type} (r : Record V) (k k' : String) (v : V) :
    getKey (setKey r k v) k' = if k' = k then some v else getKey r k' := by
  unfold setKey
  by_cases hany : r.any (fun e => e.1 == k) = true
  · rw [if_pos hany]
    by_cases hk : k' = k
    · rw [if_pos hk, hk]
      unfold getKey
      rw [find?_map_replace_self k v r hany]
      rfl
    · rw [if_neg hk]
      unfold getKey
      rw [find?_map_replace_ne k k' v hk r]
  · rw [if_neg hany]
    have hnone : r.find? (fun e => e.1 == k) = none := by
      rw [List.find?_eq_none]
      intro x hx hcx
      exact hany (List.any_eq_true.mpr ⟨x, hx, hcx⟩)
    by_cases hk : k' = k
    · rw [if_pos hk, hk]
      unfold getKey
      rw [List.find?_append, hnone]
      simp
    · rw [if_neg hk]
      unfold getKey
      rw [List.find?_append]
      have hkk : (k == k') = false := by simpa using fun h => hk h.symm
      have h2 : List.find? (fun e => e.1 == k') [(k, v)] = none := by
        simp [hkk]
      rw [h2]
      simp

lemma getKey_setKey_self {V : Type} (r : Record V) (k : String) (v : V) :
    getKey (setKey r k v) k = some v := by simp [getKey_setKey]

lemma getKey_setKey_ne {V : Type} (r : Record V) (k k' : String) (v : V)
    (h : k' ≠ k) : getKey (setKey r k v) k' = getKey r k' := by
  simp [getKey_setKey, h]

/-- Fold of `setKey` over a list of fresh, pairwise distinct keys is plain
append: the shape `rebalanceGroup` produces. -/
lemma foldl_setKey_eq_append {V : Type} :
    ∀ (l : List (String × V)) (r : Record V),
      (l.map Prod.fst).Nodup →
      (∀ e ∈ l, r.any (fun x => x.1 == e.1) = false) →
      l.foldl (fun acc e => setKey acc e.1 e.2) r = r ++ l := by
  intro l
  induction l with
  | nil => intro r _ _; simp
  | cons e es ih =>
    intro r hnd hdis
    have hre : setKey r e.1 e.2 = r ++ [e] := by
      unfold setKey
      rw [if_neg (by simp [hdis e (by simp)])]
    have hnd' : (es.map Prod.fst).Nodup := (List.nodup_cons.mp (by simpa using hnd)).2
    have hder : ∀ e' ∈ es, (r ++ [e]).any (fun x => x.1 == e'.1) = false := by
      intro e' he'
      rw [List.any_append]
      have h1 : r.any (fun x => x.1 == e'.1) = false := hdis e' (by simp [he'])
      have h2 : (e.1 == e'.1) = false := by
        have hni : e.1 ∉ es.map Prod.fst := (List.nodup_cons.mp (by simpa using hnd)).1
        have hne : e.1 ≠ e'.1 := fun hh => hni (by
          rw [hh]; exact List.mem_map_of_mem Prod.fst he')
        simpa using hne
      simp [h1, h2]
    calc (e :: es).foldl (fun acc x => setKey acc x.1 x.2) r
        = es.foldl (fun acc x => setKey acc x.1 x.2) (r ++ [e]) := by
          simp [List.foldl_cons, hre]
      _ = (r ++ [e]) ++ es := ih (r ++ [e]) hnd' hder
      _ = r ++ (e :: es) := by simp

/-- In an association list with pairwise distinct keys, looking up the key
of the i-th binding returns the i-th value. -/
lemma getKey_getElem {V : Type} :
    ∀ (l : Record V), (l.map Prod.fst).Nodup →
      ∀ (i : Nat) (h : i < l.length), getKey l (l[i].1) = some (l[i].2) := by
  intro l
  induction l with
  | nil => intro _ i h; simp at h
  | cons e es ih =>
    intro hnd i h
    cases i with
    | zero => simp [getKey, List.find?_cons]
    | succ j =>
      have hj : j < es.length := by simpa using h
      have hmem : es[j].1 ∈ es.map Prod.fst :=
        List.mem_map_of_mem Prod.fst (es.getElem_mem hj)
      have hne : (e.1 == es[j].1) = false := by
        have hni : e.1 ∉ es.map Prod.fst := (List.nodup_cons.mp (by simpa using hnd)).1
        simpa using fun hh : e.1 = es[j].1 => hni (by rw [hh]; exact hmem)
      have := ih (List.nodup_cons.mp (by simpa using hnd)).2 j hj
      simpa [getKey, List.find?_cons, hne] using this

/-! The rolling hash stays in signed 32-bit range. -/

lemma toInt32_range (x : Int) : -(2 ^ 31) ≤ toInt32 x ∧ toInt32 x < 2 ^ 31 := by
  unfold toInt32
  have h1 : 0 ≤ (x + 2 ^ 31) % 2 ^ 32 := Int.emod_nonneg _ (by norm_num)
  have h2 : (x + 2 ^ 31) % 2 ^ 32 < 2 ^ 32 := Int.emod_lt_of_pos _ (by norm_num)
  omega

lemma hashLoop_foldl_range :
    ∀ (key : List Nat) (h : Int), -(2 ^ 31) ≤ h ∧ h < 2 ^ 31 →
      -(2 ^ 31) ≤ key.foldl (fun (h : Int) (c : Nat) => toInt32 (h * 31 + (c : Int))) h ∧
        key.foldl (fun (h : Int) (c : Nat) => toInt32 (h * 31 + (c : Int))) h < 2 ^ 31 := by
  intro key
  induction key with
  | nil => intro h hh; simpa using hh
  | cons c cs ih =>
    intro h _
    rw [List.foldl_cons]
    exact ih _ (toInt32_range _)

lemma hashLoop_range (key : List Nat) :
    -(2 ^ 31) ≤ hashLoop key ∧ hashLoop key < 2 ^ 31 :=
  hashLoop_foldl_range key 0 (by norm_num)

/-! Per-partition behavior of the leader election. -/

lemma electPartition_frame (u : List String) (p : Partition) :
    (electPartition u p).replicas = p.replicas ∧
    (electPartition u p).id = p.id ∧
    (electPartition u p).topic = p.topic ∧
    (electPartition u p).endOffset = p.endOffset := by
  unfold electPartition
  refine ⟨rfl, rfl, rfl, rfl⟩

lemma electPartition_leader_offline (u : List String) (p : Partition) :
    (electPartition u p).offline = jsFalsyStr (electPartition u p).leader := by
  unfold electPartition
  rfl

/-- The new leader of a partition: kept when the current one is a truthy id
of an up broker, otherwise the first alive replica (or none). -/
lemma electPartition_leader (u : List String) (p : Partition) :
    (electPartition u p).leader =
      (if (match p.leader with
           | none => false
           | some l => !(l == "") && u.contains l) = true
       then p.leader
       else (p.replicas.filter (fun r => u.contains r)).head?) := by
  unfold electPartition
  rfl

lemma contains_iff_mem {l : List String} {a : String} :
    l.contains a = true ↔ a ∈ l := by
  simp [List.contains]

lemma electPartition_safety (u : List String) (p : Partition)
    (hrep : ∀ r ∈ p.replicas, r ≠ "")
    (hld : ∀ l, p.leader = some l → l ∈ p.replicas) :
    ((electPartition u p).leader = none ↔ ∀ r ∈ p.replicas, r ∉ u) ∧
    (∀ l, (electPartition u p).leader = some l → l ∈ u) ∧
    ((electPartition u p).offline = true ↔ (electPartition u p).leader = none) := by
  have hoff := electPartition_leader_offline u p
  have hlead := electPartition_leader u p
  have hmem_of_head : ∀ s, (p.replicas.filter (fun r => u.contains r)).head? = some s →
      s ∈ p.replicas ∧ s ∈ u := by
    intro s hs
    have hm := mem_of_head?_eq_some hs
    rw [List.mem_filter] at hm
    exact ⟨hm.1, contains_iff_mem.mp hm.2⟩
  have hrecompute : ∀ (hl : (electPartition u p).leader
        = (p.replicas.filter (fun r => u.contains r)).head?),
      ((electPartition u p).leader = none ↔ ∀ r ∈ p.replicas, r ∉ u) ∧
      (∀ l, (electPartition u p).leader = some l → l ∈ u) ∧
      ((electPartition u p).offline = true ↔ (electPartition u p).leader = none) := by
    intro hl
    refine ⟨?_, ?_, ?_⟩
    · rw [hl, List.head?_eq_none_iff, List.filter_eq_nil_iff]
      constructor
      · intro hall r hr hru
        exact hall r hr (by simpa using contains_iff_mem.mpr hru)
      · intro hall r hr hru
        exact hall r hr (contains_iff_mem.mp (by simpa using hru))
    · intro l hsl
      rw [hl] at hsl
      exact (hmem_of_head l hsl).2
    · rw [hoff]
      cases hh : (electPartition u p).leader with
      | none => simp [jsFalsyStr]
      | some s =>
        rw [hl] at hh
        have hs := (hmem_of_head s hh).1
        have : s ≠ "" := hrep s hs
        simp [jsFalsyStr, this]
  cases hpl : p.leader with
  | none =>
    exact hrecompute (by rw [hlead, hpl]; rfl)
  | some l =>
    by_cases halive : ((!(l == "")) && u.contains l) = true
    · have hkeep : (electPartition u p).leader = some l := by
        rw [hlead, hpl]
        exact if_pos halive
      rw [Bool.and_eq_true] at halive
      have hlu : l ∈ u := contains_iff_mem.mp halive.2
      have hlne : l ≠ "" := by simpa using halive.1
      refine ⟨?_, ?_, ?_⟩
      · rw [hkeep]
        constructor
        · intro h; exact absurd h (by simp)
        · intro hall
          exact absurd hlu (hall l (hld l hpl))
      · intro l' hl'
        rw [hkeep] at hl'
        cases hl'
        exact hlu
      · rw [hoff, hkeep]
        simp [jsFalsyStr, hlne]
    · exact hrecompute (by rw [hlead, hpl]; exact if_neg halive)

lemma partitionExt {p q : Partition} (h1 : p.id = q.id) (h2 : p.topic = q.topic)
    (h3 : p.leader = q.leader) (h4 : p.replicas = q.replicas)
    (h5 : p.offline = q.offline) (h6 : p.endOffset = q.endOffset) : p = q := by
  cases p; cases q; simp_all

lemma topicExt {t s : Topic} (h1 : t.name = s.name)
    (h2 : t.partitions = s.partitions) (h3 : t.color = s.color) : t = s := by
  cases t; cases s; simp_all

lemma clusterExt {c d : Cluster} (h1 : c.brokers = d.brokers)
    (h2 : c.topics = d.topics) : c = d := by
  cases c; cases d; simp_all

lemma electLeaders_topics (c : Cluster) :
    (electLeaders c).topics = c.topics.map (fun t =>
      { t with partitions := t.partitions.map (electPartition (upIds c)) }) := rfl

lemma electLeaders_brokers (c : Cluster) :
    (electLeaders c).brokers = c.brokers := rfl

lemma clusterWF_spec (c : Cluster) (h : clusterWF c = true) :
    ∀ t ∈ c.topics, ∀ p ∈ t.partitions,
      (∀ r ∈ p.replicas, r ≠ "") ∧ (∀ l, p.leader = some l → l ∈ p.replicas) := by
  simp only [clusterWF, List.all_eq_true] at h
  intro t ht p hp
  have h3 := h t ht p hp
  rw [Bool.and_eq_true] at h3
  constructor
  · intro r hr
    have h4 := h3.1
    rw [List.all_eq_true] at h4
    simpa using h4 r hr
  · intro l hl
    have h5 := h3.2
    rw [hl] at h5
    exact contains_iff_mem.mp h5

lemma electPartition_leader_idem (u : List String) (p : Partition) :
    (electPartition u (electPartition u p)).leader = (electPartition u p).leader := by
  have hrepl : (electPartition u p).replicas = p.replicas := (electPartition_frame u p).1
  have h2 := electPartition_leader u (electPartition u p)
  rw [hrepl] at h2
  have h1 := electPartition_leader u p
  have hhead : (electPartition u p).leader
        = (p.replicas.filter (fun r => u.contains r)).head? →
      (electPartition u (electPartition u p)).leader = (electPartition u p).leader := by
    intro hq
    rw [h2, hq]
    exact ite_self _
  cases hpl : p.leader with
  | none => exact hhead (by rw [h1, hpl]; rfl)
  | some l =>
    by_cases hc : ((!(l == "")) && u.contains l) = true
    · have hq : (electPartition u p).leader = some l := by
        rw [h1, hpl]; exact if_pos hc
      rw [h2, hq]
      exact if_pos hc
    · exact hhead (by rw [h1, hpl]; exact if_neg hc)

lemma electPartition_idem (u : List String) (p : Partition) :
    electPartition u (electPartition u p) = electPartition u p := by
  have hL := electPartition_leader_idem u p
  have hf := electPartition_frame u (electPartition u p)
  apply partitionExt hf.2.1 hf.2.2.1 hL hf.1
  · rw [electPartition_leader_offline u (electPartition u p), hL,
      ← electPartition_leader_offline u p]
  · exact hf.2.2.2

lemma stripElect_electPartition (u : List String) (p : Partition) :
    stripElect (electPartition u p) = stripElect p := rfl

/-! Claim theorems about the leader election. -/

/-- C1.  After `electLeaders`, every partition's leader is `null` exactly
when none of its replicas is on an up broker; a non-null leader is always
an up broker; and `offline` holds exactly when the leader is `null`.
Stated for well-formed clusters (non-empty replica ids, leader drawn from
the replica list), which is the invariant the program maintains. -/
theorem electLeaders_election_safety (c : Cluster) (hwf : clusterWF c = true) :
    ∀ t ∈ (electLeaders c).topics, ∀ p ∈ t.partitions,
      (p.leader = none ↔ ∀ r ∈ p.replicas, r ∉ upIds c) ∧
      (∀ l, p.leader = some l → l ∈ upIds c) ∧
      (p.offline = true ↔ p.leader = none) := by
  intro t ht p hp
  rw [electLeaders_topics] at ht
  obtain ⟨t₀, ht₀, rfl⟩ := List.mem_map.mp ht
  obtain ⟨p₀, hp₀, rfl⟩ := List.mem_map.mp hp
  have hwf2 := clusterWF_spec c hwf t₀ ht₀ p₀ hp₀
  have hsafe := electPartition_safety (upIds c) p₀ hwf2.1 hwf2.2
  rw [(electPartition_frame (upIds c) p₀).1]
  exact hsafe

theorem electLeaders_election_safety_witness :
    clusterWF electWitnessCluster = true ∧
    (∀ t ∈ (electLeaders electWitnessCluster).topics, ∀ p ∈ t.partitions,
      (p.leader = none ↔ ∀ r ∈ p.replicas, r ∉ upIds electWitnessCluster) ∧
      (∀ l, p.leader = some l → l ∈ upIds electWitnessCluster) ∧
      (p.offline = true ↔ p.leader = none)) :=
  ⟨by decide, electLeaders_election_safety electWitnessCluster (by decide)⟩

/-- C3.  `electLeaders` keeps a partition's leader when it is non-null and
up, and otherwise replaces it by the first replica (in original replica
order) whose broker is up, or `null` when there is none. -/
theorem electLeaders_stability_failover (c : Cluster) (hwf : clusterWF c = true) :
    ∀ (ti pi : Nat) (t t' : Topic) (p p' : Partition),
      c.topics[ti]? = some t → t.partitions[pi]? = some p →
      (electLeaders c).topics[ti]? = some t' → t'.partitions[pi]? = some p' →
      ((∀ l, p.leader = some l → l ∈ upIds c → p'.leader = p.leader) ∧
       ((p.leader = none ∨ ∃ l, p.leader = some l ∧ l ∉ upIds c) →
         p'.leader = (p.replicas.filter (fun r => (upIds c).contains r)).head?)) := by
  intro ti pi t t' p p' ht hp ht' hp'
  rw [electLeaders_topics, List.getElem?_map, ht] at ht'
  cases ht'
  simp only [Option.map_some'] at hp'
  rw [List.getElem?_map, hp, Option.map_some'] at hp'
  cases hp'
  have hwfp := clusterWF_spec c hwf t (List.getElem?_mem ht) p (List.getElem?_mem hp)
  have hlead := electPartition_leader (upIds c) p
  constructor
  · intro l hl hup
    rw [hlead, hl]
    have hlne : l ≠ "" := hwfp.1 l (hwfp.2 l hl)
    have hcond : ((!(l == "")) && (upIds c).contains l) = true := by
      rw [Bool.and_eq_true]
      exact ⟨by simpa using hlne, contains_iff_mem.mpr hup⟩
    exact if_pos hcond
  · intro hdown
    rw [hlead]
    rcases hdown with hnone | ⟨l, hl, hnup⟩
    · rw [hnone]
      rfl
    · rw [hl]
      have hcond : ¬(((!(l == "")) && (upIds c).contains l) = true) := by
        intro hcontra
        rw [Bool.and_eq_true] at hcontra
        exact hnup (contains_iff_mem.mp hcontra.2)
      exact if_neg hcond

theorem electLeaders_stability_failover_witness :
    clusterWF electWitnessCluster = true ∧
    (∀ (ti pi : Nat) (t t' : Topic) (p p' : Partition),
      electWitnessCluster.topics[ti]? = some t → t.partitions[pi]? = some p →
      (electLeaders electWitnessCluster).topics[ti]? = some t' →
      t'.partitions[pi]? = some p' →
      ((∀ l, p.leader = some l → l ∈ upIds electWitnessCluster → p'.leader = p.leader) ∧
       ((p.leader = none ∨ ∃ l, p.leader = some l ∧ l ∉ upIds electWitnessCluster) →
         p'.leader
           = (p.replicas.filter (fun r => (upIds electWitnessCluster).contains r)).head?))) ∧
    (∀ t ∈ (electLeaders electWitnessCluster).topics, ∀ p ∈ t.partitions,
      p.leader = some "b1") :=
  ⟨by decide,
   electLeaders_stability_failover electWitnessCluster (by decide),
   by decide⟩

/-- C9.  Re-running the election with unchanged broker state changes
nothing: `electLeaders` is idempotent. -/
theorem electLeaders_idempotent (c : Cluster) :
    electLeaders (electLeaders c) = electLeaders c := by
  refine clusterExt rfl ?_
  rw [electLeaders_topics (electLeaders c), electLeaders_topics c]
  have hup : upIds (electLeaders c) = upIds c := rfl
  rw [hup, List.map_map]
  apply List.map_congr_left
  intro t _
  show ({ name := t.name,
          partitions := (t.partitions.map (electPartition (upIds c))).map
            (electPartition (upIds c)),
          color := t.color : Topic })
      = { name := t.name,
          partitions := t.partitions.map (electPartition (upIds c)),
          color := t.color }
  refine topicExt rfl ?_ rfl
  show (t.partitions.map (electPartition (upIds c))).map (electPartition (upIds c))
      = t.partitions.map (electPartition (upIds c))
  rw [List.map_map]
  apply List.map_congr_left
  intro p _
  exact electPartition_idem (upIds c) p

/-- C10.  `electLeaders` only rewrites the `leader` and `offline` fields:
the broker list is untouched, and the topics agree with the originals
after blanking exactly those two fields of every partition. -/
theorem electLeaders_frame (c : Cluster) :
    (electLeaders c).brokers = c.brokers ∧
    (electLeaders c).topics.map stripElectTopic = c.topics.map stripElectTopic := by
  refine ⟨rfl, ?_⟩
  rw [electLeaders_topics, List.map_map]
  apply List.map_congr_left
  intro t _
  show ({ name := t.name,
          partitions := (t.partitions.map (electPartition (upIds c))).map stripElect,
          color := t.color : Topic })
      = { name := t.name, partitions := t.partitions.map stripElect, color := t.color }
  refine topicExt rfl ?_ rfl
  show (t.partitions.map (electPartition (upIds c))).map stripElect
      = t.partitions.map stripElect
  rw [List.map_map]
  apply List.map_congr_left
  intro p _
  exact stripElect_electPartition (upIds c) p

/-! Topology builder: shape of the clusters `buildCluster` produces. -/

lemma getD_range_map {α : Type} (f : Nat → α) (n i : Nat) (d : α) (h : i < n) :
    ((List.range n).map f).getD i d = f i := by
  rw [List.getD_eq_getElem?_getD, List.getElem?_map, List.getElem?_range h]
  rfl

lemma add_mod_inj {bc a k₁ k₂ : Nat} (h1 : k₁ < bc) (h2 : k₂ < bc)
    (h : (a + k₁) % bc = (a + k₂) % bc) : k₁ = k₂ := by
  have hme : k₁ ≡ k₂ [MOD bc] := Nat.ModEq.add_left_cancel' a h
  have hmm : k₁ % bc = k₂ % bc := hme
  rwa [Nat.mod_eq_of_lt h1, Nat.mod_eq_of_lt h2] at hmm

lemma rf_bounds (bc : Nat) (hbc : 1 ≤ bc) (x : Int) :
    1 ≤ (max 1 (min x (bc : Int))).toNat ∧ (max 1 (min x (bc : Int))).toNat ≤ bc := by
  have h1 : (1 : Int) ≤ max 1 (min x (bc : Int)) := le_max_left _ _
  have h2 : max 1 (min x (bc : Int)) ≤ (bc : Int) :=
    max_le (by exact_mod_cast hbc) (min_le_right _ _)
  omega

/-- The replica list of a built partition, written as a single map over
contiguous wrapped broker indices. -/
lemma buildPartition_replicas (bc : Nat) (hbc : 1 ≤ bc) (rf : Nat)
    (tname : String) (p : Nat) :
    (buildPartition bc (buildBrokers bc) rf tname p).replicas
      = (List.range rf).map (fun k => (mkBroker ((p % bc + k) % bc)).id) := by
  show (((List.range rf).map (fun k => (p % bc + k) % bc)).map
      (fun ri => ((buildBrokers bc).getD ri (mkBroker ri)).id))
    = (List.range rf).map (fun k => (mkBroker ((p % bc + k) % bc)).id)
  rw [List.map_map]
  apply List.map_congr_left
  intro k _
  have hlt : (p % bc + k) % bc < bc := Nat.mod_lt _ (by omega)
  show ((buildBrokers bc).getD ((p % bc + k) % bc) _).id = _
  rw [buildBrokers, getD_range_map mkBroker bc _ _ hlt]

/-- Everything `buildCluster` guarantees about every topic and partition it
builds, for any broker count ≥ 1 and arbitrary (unclamped) topic configs. -/
lemma buildCluster_spec (bc : Nat) (cfg : List TopicConfig) (hbc : 1 ≤ bc) :
    ∀ (i : Nat) (tc : TopicConfig), cfg[i]? = some tc →
      ∃ t : Topic, (buildCluster bc cfg).topics[i]? = some t ∧
        t.name = tc.name ∧
        t.partitions.length = tc.partitions.toNat ∧
        ∀ (p : Nat) (pt : Partition), t.partitions[p]? = some pt →
          pt.id = p ∧ pt.topic = tc.name ∧
          pt.replicas.length = (max 1 (min tc.replicationFactor (bc : Int))).toNat ∧
          pt.replicas.Nodup ∧
          pt.leader = pt.replicas.head? ∧
          pt.replicas.head? = some (mkBroker (p % bc)).id ∧
          pt.endOffset = 0 ∧
          (∀ r ∈ pt.replicas, ∃ k, r = (mkBroker k).id) := by
  intro i tc h
  have htop : (buildCluster bc cfg).topics[i]?
      = some (buildTopic bc (buildBrokers bc) i tc) := by
    show (cfg.enum.map (fun it => buildTopic bc (buildBrokers bc) it.1 it.2))[i]?
        = _
    rw [List.getElem?_map, List.getElem?_enum, h, Option.map_some', Option.map_some']
  refine ⟨_, htop, rfl, by simp [buildTopic], ?_⟩
  set rf := (max 1 (min tc.replicationFactor (bc : Int))).toNat with hrf
  obtain ⟨hrf1, hrfbc⟩ := rf_bounds bc hbc tc.replicationFactor
  intro p pt hpt
  have hparts : (buildTopic bc (buildBrokers bc) i tc).partitions
      = (List.range tc.partitions.toNat).map
          (buildPartition bc (buildBrokers bc) rf tc.name) := rfl
  rw [hparts, List.getElem?_map] at hpt
  cases hlt : (List.range tc.partitions.toNat)[p]? with
  | none => rw [hlt] at hpt; exact Option.noConfusion hpt
  | some p' =>
    rw [hlt, Option.map_some'] at hpt
    have hpp : p' = p := by
      have hmem := List.getElem?_mem hlt
      have hplen : p < tc.partitions.toNat := by
        by_contra hge
        have : (List.range tc.partitions.toNat)[p]? = none := by
          rw [List.getElem?_eq_none]
          simpa using Nat.le_of_not_lt hge
        rw [this] at hlt
        exact Option.noConfusion hlt
      have := List.getElem?_range hplen
      rw [this] at hlt
      exact (Option.some.injEq _ _ ▸ hlt.symm :)
    subst hpp
    cases hpt
    have hre := buildPartition_replicas bc hbc rf tc.name p'
    refine ⟨rfl, rfl, ?_, ?_, rfl, ?_, rfl, ?_⟩
    · rw [hre]
      simp [hrf]
    · rw [hre]
      apply List.Nodup.map_on ?_ (List.nodup_range _)
      intro x hx y hy hxy
      rw [List.mem_range] at hx hy
      have hidx := mkBroker_id_inj hxy
      exact add_mod_inj (by omega) (by omega) hidx
    · rw [hre, List.head?_map, List.head?_eq_getElem?, List.getElem?_range (by omega)]
      simp [Nat.mod_mod]
    · rw [hre]
      intro r hr
      obtain ⟨k, -, hk⟩ := List.mem_map.mp hr
      exact ⟨(p' % bc + k) % bc, hk.symm⟩

lemma mkBroker_id_ne_empty (i : Nat) : (mkBroker i).id ≠ "" := by
  intro h
  have hd := congrArg String.data h
  simp [mkBroker] at hd

/-- The builder establishes the cluster well-formedness invariant. -/
lemma buildCluster_clusterWF (bc : Nat) (cfg : List TopicConfig) (hbc : 1 ≤ bc) :
    clusterWF (buildCluster bc cfg) = true := by
  simp only [clusterWF, List.all_eq_true]
  intro t ht p hp
  obtain ⟨i, hi⟩ := List.mem_iff_getElem?.mp ht
  have h1 : (buildCluster bc cfg).topics[i]?
      = (cfg[i]?).map (fun tc => buildTopic bc (buildBrokers bc) i tc) := by
    show (cfg.enum.map fun it => buildTopic bc (buildBrokers bc) it.1 it.2)[i]? = _
    rw [List.getElem?_map, List.getElem?_enum]
    cases cfg[i]? <;> rfl
  cases hc : cfg[i]? with
  | none =>
    rw [h1, hc] at hi
    exact Option.noConfusion hi
  | some tc =>
    obtain ⟨t', ht', -, -, hall⟩ := buildCluster_spec bc cfg hbc i tc hc
    have htt : t' = t := by
      rw [ht'] at hi
      injection hi
    subst htt
    obtain ⟨pidx, hpidx⟩ := List.mem_iff_getElem?.mp hp
    obtain ⟨-, -, -, -, hlead, hhead, -, hrepl⟩ := hall pidx p hpidx
    rw [Bool.and_eq_true]
    constructor
    · rw [List.all_eq_true]
      intro r hr
      obtain ⟨k, hk⟩ := hrepl r hr
      have := mkBroker_id_ne_empty k
      rw [hk]
      simpa using this
    · rw [hlead, hhead]
      exact contains_iff_mem.mpr (mem_of_head?_eq_some hhead)

/-- The elector preserves the cluster well-formedness invariant. -/
lemma electLeaders_clusterWF (c : Cluster) (h : clusterWF c = true) :
    clusterWF (electLeaders c) = true := by
  simp only [clusterWF, List.all_eq_true] at h ⊢
  intro t ht p hp
  rw [electLeaders_topics] at ht
  obtain ⟨t₀, ht₀, rfl⟩ := List.mem_map.mp ht
  obtain ⟨p₀, hp₀, rfl⟩ := List.mem_map.mp hp
  have h0 := h t₀ ht₀ p₀ hp₀
  rw [Bool.and_eq_true] at h0 ⊢
  have hrepl : (electPartition (upIds c) p₀).replicas = p₀.replicas :=
    (electPartition_frame (upIds c) p₀).1
  constructor
  · rw [hrepl]
    exact h0.1
  · have hlead := electPartition_leader (upIds c) p₀
    by_cases hcond : (match p₀.leader with
        | none => false
        | some l => !(l == "") && (upIds c).contains l) = true
    · rw [hlead, if_pos hcond]
      cases hpl : p₀.leader with
      | none => simp
      | some l =>
        have h2 := h0.2
        rw [hpl] at h2
        rw [hrepl]
        exact h2
    · rw [hlead, if_neg hcond]
      cases hh : (p₀.replicas.filter (fun r => (upIds c).contains r)).head? with
      | none => simp
      | some r =>
        have hm := mem_of_head?_eq_some hh
        rw [List.mem_filter] at hm
        rw [hrepl]
        exact contains_iff_mem.mpr hm.1

/-- C2.  Every partition built by `buildCluster` (broker count ≥ 1) has
exactly `clamp(rf, 1, brokerCount)` replicas with pairwise distinct broker
ids, its leader is `replicas[0]`, `replicas[0]` is the broker with index
`p % brokerCount`, and its end offset is 0. -/
theorem buildCluster_replica_integrity (bc : Nat) (cfg : List TopicConfig)
    (hbc : 1 ≤ bc) :
    ∀ (i : Nat) (tc : TopicConfig), cfg[i]? = some tc →
      ∃ t : Topic, (buildCluster bc cfg).topics[i]? = some t ∧
        ∀ (p : Nat) (pt : Partition), t.partitions[p]? = some pt →
          pt.replicas.length = (max 1 (min tc.replicationFactor (bc : Int))).toNat ∧
          pt.replicas.Nodup ∧
          pt.leader = pt.replicas.head? ∧
          pt.replicas.head? = some (mkBroker (p % bc)).id ∧
          pt.endOffset = 0 := by
  intro i tc h
  obtain ⟨t, ht, -, -, hall⟩ := buildCluster_spec bc cfg hbc i tc h
  refine ⟨t, ht, fun p pt hpt => ?_⟩
  obtain ⟨-, -, h3, h4, h5, h6, h7, -⟩ := hall p pt hpt
  exact ⟨h3, h4, h5, h6, h7⟩

theorem buildCluster_replica_integrity_witness :
    1 ≤ 3 ∧
    (∀ (i : Nat) (tc : TopicConfig),
      ([{ name := "t", partitions := 3, replicationFactor := 2 }]
        : List TopicConfig)[i]? = some tc →
      ∃ t : Topic,
        (buildCluster 3 [{ name := "t", partitions := 3, replicationFactor := 2 }]
          ).topics[i]? = some t ∧
        ∀ (p : Nat) (pt : Partition), t.partitions[p]? = some pt →
          pt.replicas.length = (max 1 (min tc.replicationFactor (3 : Int))).toNat ∧
          pt.replicas.Nodup ∧
          pt.leader = pt.replicas.head? ∧
          pt.replicas.head? = some (mkBroker (p % 3)).id ∧
          pt.endOffset = 0) :=
  ⟨by decide,
   buildCluster_replica_integrity 3
     [{ name := "t", partitions := 3, replicationFactor := 2 }] (by decide)⟩

/-- C8 counterexample: `buildCluster` does NOT clamp the partition count.
With `partitions = 0` the built topic has zero partitions, not one (the
clamp to ≥ 1 lives in the UI input handler `updateTopicSpec`, App.tsx
line 284, not in `buildCluster`). -/
theorem buildCluster_partition_clamp_cex :
    ((buildCluster 2 [{ name := "t", partitions := 0, replicationFactor := 2 }]
      ).topics.map (fun t => t.partitions.length)) = [0] := by decide

/-- C8 amended.  `buildCluster` never rejects its input: the replication
factor is clamped into `[1, brokerCount]`, so every built partition has
between 1 and `brokerCount` replicas; the partition count is not clamped
but floored at zero (`max 0`, via `Int.toNat`), so a config with
`partitionCount < 1` yields a topic with no partitions. -/
theorem buildCluster_clamp_amended (bc : Nat) (cfg : List TopicConfig)
    (hbc : 1 ≤ bc) :
    ∀ (i : Nat) (tc : TopicConfig), cfg[i]? = some tc →
      ∃ t : Topic, (buildCluster bc cfg).topics[i]? = some t ∧
        t.partitions.length = tc.partitions.toNat ∧
        ∀ (p : Nat) (pt : Partition), t.partitions[p]? = some pt →
          1 ≤ pt.replicas.length ∧ pt.replicas.length ≤ bc := by
  intro i tc h
  obtain ⟨t, ht, -, hlen, hall⟩ := buildCluster_spec bc cfg hbc i tc h
  refine ⟨t, ht, hlen, fun p pt hpt => ?_⟩
  obtain ⟨-, -, h3, -⟩ := hall p pt hpt
  obtain ⟨hb1, hb2⟩ := rf_bounds bc hbc tc.replicationFactor
  omega

theorem buildCluster_clamp_amended_witness :
    1 ≤ 2 ∧
    (∀ (i : Nat) (tc : TopicConfig),
      ([{ name := "t", partitions := -5, replicationFactor := 99 },
        { name := "u", partitions := 2, replicationFactor := 0 }]
        : List TopicConfig)[i]? = some tc →
      ∃ t : Topic,
        (buildCluster 2 [{ name := "t", partitions := -5, replicationFactor := 99 },
          { name := "u", partitions := 2, replicationFactor := 0 }]).topics[i]?
            = some t ∧
        t.partitions.length = tc.partitions.toNat ∧
        ∀ (p : Nat) (pt : Partition), t.partitions[p]? = some pt →
          1 ≤ pt.replicas.length ∧ pt.replicas.length ≤ 2) :=
  ⟨by decide,
   buildCluster_clamp_amended 2
     [{ name := "t", partitions := -5, replicationFactor := 99 },
      { name := "u", partitions := 2, replicationFactor := 0 }] (by decide)⟩

/-- C4.  The routing function returns `Math.abs(h) % n` for the 32-bit
rolling hash `h`; the result is always in `[0, n)` and the function is
deterministic (same key and same `n` give the same index). -/
theorem hashKeyToPartition_spec (key : List Nat) (n : Nat)
    (hk : key ≠ []) (hn : 1 ≤ n) :
    hashKeyToPartition key n = (hashLoop key).natAbs % n ∧
    hashKeyToPartition key n < n ∧
    (-(2 ^ 31) ≤ hashLoop key ∧ hashLoop key < 2 ^ 31) ∧
    (∀ key' : List Nat, key' = key →
      hashKeyToPartition key' n = hashKeyToPartition key n) := by
  refine ⟨rfl, ?_, hashLoop_range key, ?_⟩
  · exact Nat.mod_lt _ (by omega)
  · intro key' hk'
    rw [hk']

theorem hashKeyToPartition_spec_witness :
    ([117, 115, 101, 114, 45, 52, 50] : List Nat) ≠ [] ∧ 1 ≤ 6 ∧
    (hashKeyToPartition [117, 115, 101, 114, 45, 52, 50] 6
        = (hashLoop [117, 115, 101, 114, 45, 52, 50]).natAbs % 6 ∧
      hashKeyToPartition [117, 115, 101, 114, 45, 52, 50] 6 < 6 ∧
      (-(2 ^ 31) ≤ hashLoop [117, 115, 101, 114, 45, 52, 50] ∧
        hashLoop [117, 115, 101, 114, 45, 52, 50] < 2 ^ 31) ∧
      (∀ key' : List Nat, key' = [117, 115, 101, 114, 45, 52, 50] →
        hashKeyToPartition key' 6
          = hashKeyToPartition [117, 115, 101, 114, 45, 52, 50] 6)) :=
  ⟨by decide, by decide,
   hashKeyToPartition_spec [117, 115, 101, 114, 45, 52, 50] 6 (by decide) (by decide)⟩

/-! Counting for the round-robin assignment. -/

lemma countP_range_mod (m j : Nat) (hm : 0 < m) (hj : j < m) :
    ∀ p : Nat, (List.range p).countP (fun i => i % m == j)
      = p / m + (if j < p % m then 1 else 0) := by
  intro p
  induction p with
  | zero => simp
  | succ p ih =>
    rw [List.range_succ, List.countP_append, ih]
    have hsingle : List.countP (fun i => i % m == j) [p]
        = if p % m = j then 1 else 0 := by
      rw [List.countP_cons, List.countP_nil]
      by_cases h : p % m = j <;> simp [h]
    rw [hsingle]
    have hpd := Nat.div_add_mod p m
    have hrm : p % m < m := Nat.mod_lt _ hm
    by_cases hcase : p % m + 1 < m
    · have hdiv : (p + 1) / m = p / m := by
        conv_lhs => rw [← hpd]
        have : m * (p / m) + p % m + 1 = m * (p / m) + (p % m + 1) := by omega
        rw [this, Nat.mul_add_div hm, Nat.div_eq_of_lt hcase, Nat.add_zero]
      have hmod : (p + 1) % m = p % m + 1 := by
        conv_lhs => rw [← hpd]
        have : m * (p / m) + p % m + 1 = m * (p / m) + (p % m + 1) := by omega
        rw [this, Nat.mul_add_mod, Nat.mod_eq_of_lt hcase]
      rw [hdiv, hmod]
      by_cases hjr : p % m = j <;> split_ifs <;> omega
    · have hrm1 : p % m + 1 = m := by omega
      have heq : p + 1 = m * (p / m + 1) := by
        rw [Nat.mul_succ]
        omega
      have hdiv : (p + 1) / m = p / m + 1 := by
        rw [heq, Nat.mul_div_cancel_left _ hm]
      have hmod : (p + 1) % m = 0 := by
        rw [heq, Nat.mul_mod_right]
      rw [hdiv, hmod]
      by_cases hjr : p % m = j <;> split_ifs <;> omega

lemma ceilDiv_of_mod_pos {p m : Nat} (hm : 0 < m) (h : 0 < p % m) :
    (p + m - 1) / m = p / m + 1 := by
  have hpd := Nat.div_add_mod p m
  have hrm : p % m < m := Nat.mod_lt _ hm
  have heq : p + m - 1 = m * (p / m + 1) + (p % m - 1) := by
    rw [Nat.mul_add m (p / m) 1]
    omega
  rw [heq, Nat.mul_add_div hm, Nat.div_eq_of_lt (show p % m - 1 < m by omega)]

lemma getD_map_id (l : List Consumer) (i : Nat) (d : Consumer) :
    (l.getD i d).id = (l.map Consumer.id).getD i d.id := by
  rw [List.getD_eq_getElem?_getD, List.getD_eq_getElem?_getD, List.getElem?_map]
  cases l[i]? <;> rfl

/-- With no members the assignments are cleared. -/
lemma rebalanceGroup_empty (g : ConsumerGroup) (topics : List Topic)
    (h : g.members = []) : (rebalanceGroup g topics).assignments = [] := by
  unfold rebalanceGroup
  rw [if_pos (by simp [h])]

/-- With members present and distinct partition keys, the assignment map is
exactly the round-robin association list, in enumeration order. -/
lemma rebalanceGroup_assignments (g : ConsumerGroup) (topics : List Topic)
    (hm : g.members ≠ []) (hnd : (allPartKeys topics).Nodup) :
    (rebalanceGroup g topics).assignments
      = (allPartKeys topics).enum.map (fun ipk =>
          (ipk.2, (g.members.getD (ipk.1 % g.members.length) { id := "" }).id)) := by
  unfold rebalanceGroup
  rw [if_neg (by simp [hm])]
  show (allPartKeys topics).enum.foldl (fun asg ipk =>
      setKey asg ipk.2 ((g.members.getD (ipk.1 % g.members.length) { id := "" }).id)) []
    = _
  have hfold : (allPartKeys topics).enum.foldl (fun asg ipk =>
        setKey asg ipk.2 ((g.members.getD (ipk.1 % g.members.length) { id := "" }).id)) []
      = ((allPartKeys topics).enum.map (fun ipk =>
          (ipk.2, (g.members.getD (ipk.1 % g.members.length) { id := "" }).id))).foldl
          (fun acc e => setKey acc e.1 e.2) [] := by
    rw [List.foldl_map]
  rw [hfold]
  apply foldl_setKey_eq_append
  · rw [List.map_map]
    have : (Prod.fst ∘ fun ipk : Nat × String =>
        (ipk.2, (g.members.getD (ipk.1 % g.members.length) { id := "" }).id))
        = Prod.snd := by
      funext ipk
      rfl
    rw [this, List.enum_map_snd]
    exact hnd
  · intro e _
    rfl

/-- C5.  Rebalance: with no members the assignment map is empty; with
`m ≥ 1` members the map binds exactly the enumerated partition keys, in
order, the i-th key to member `i % m`, so each member receives either
`⌊p/m⌋` or `⌈p/m⌉` of the `p` partitions. -/
theorem rebalanceGroup_fairness (g : ConsumerGroup) (topics : List Topic)
    (hnd : (allPartKeys topics).Nodup)
    (hids : (g.members.map Consumer.id).Nodup) :
    (g.members = [] → (rebalanceGroup g topics).assignments = []) ∧
    (g.members ≠ [] →
      ((rebalanceGroup g topics).assignments.map Prod.fst = allPartKeys topics) ∧
      (∀ (i : Nat) (h : i < (allPartKeys topics).length),
        getKey (rebalanceGroup g topics).assignments ((allPartKeys topics)[i])
          = some ((g.members.getD (i % g.members.length) { id := "" }).id)) ∧
      (∀ j, j < g.members.length →
        ((rebalanceGroup g topics).assignments.countP
            (fun e => e.2 == (g.members.getD j { id := "" }).id)
          = (allPartKeys topics).length / g.members.length ∨
         (rebalanceGroup g topics).assignments.countP
            (fun e => e.2 == (g.members.getD j { id := "" }).id)
          = ((allPartKeys topics).length + g.members.length - 1)
              / g.members.length))) := by
  refine ⟨fun h => rebalanceGroup_empty g topics h, fun hm => ?_⟩
  have hasg := rebalanceGroup_assignments g topics hm hnd
  have hmpos : 0 < g.members.length := List.length_pos.mpr hm
  have hcompfst : (Prod.fst ∘ fun ipk : Nat × String =>
      (ipk.2, (g.members.getD (ipk.1 % g.members.length) { id := "" }).id))
      = Prod.snd := by
    funext ipk
    rfl
  refine ⟨?_, ?_, ?_⟩
  · rw [hasg, List.map_map, hcompfst, List.enum_map_snd]
  · intro i h
    have hnd2 : (((allPartKeys topics).enum.map (fun ipk =>
        (ipk.2, (g.members.getD (ipk.1 % g.members.length) { id := "" }).id))).map
          Prod.fst).Nodup := by
      rw [List.map_map, hcompfst, List.enum_map_snd]
      exact hnd
    have hlen : i < ((allPartKeys topics).enum.map (fun ipk =>
        (ipk.2, (g.members.getD (ipk.1 % g.members.length) { id := "" }).id))).length := by
      simpa using h
    have hval := getKey_getElem _ hnd2 i hlen
    rw [List.getElem_map, List.getElem_enum] at hval
    rw [hasg]
    exact hval
  · intro j hj
    rw [hasg, List.countP_map]
    have hfun : ((fun e : String × String =>
          e.2 == (g.members.getD j { id := "" }).id) ∘
        (fun ipk : Nat × String =>
          (ipk.2, (g.members.getD (ipk.1 % g.members.length) { id := "" }).id)))
        = fun ipk : Nat × String => ipk.1 % g.members.length == j := by
      funext ipk
      show ((g.members.getD (ipk.1 % g.members.length) { id := "" }).id
          == (g.members.getD j { id := "" }).id)
        = (ipk.1 % g.members.length == j)
      by_cases heq2 : ipk.1 % g.members.length = j
      · simp [heq2]
      · have hne : (g.members.getD (ipk.1 % g.members.length) { id := "" }).id
            ≠ (g.members.getD j { id := "" }).id := by
          intro hcontra
          rw [getD_map_id, getD_map_id] at hcontra
          have h1 : ipk.1 % g.members.length < (g.members.map Consumer.id).length := by
            simpa using Nat.mod_lt ipk.1 hmpos
          have h2 : j < (g.members.map Consumer.id).length := by simpa using hj
          rw [List.getD_eq_getElem?_getD, List.getElem?_eq_getElem h1,
            Option.getD_some, List.getD_eq_getElem?_getD,
            List.getElem?_eq_getElem h2, Option.getD_some] at hcontra
          have hget : (g.members.map Consumer.id).get ⟨ipk.1 % g.members.length, h1⟩
              = (g.members.map Consumer.id).get ⟨j, h2⟩ := by
            rw [List.get_eq_getElem, List.get_eq_getElem]
            exact hcontra
          have hfin := (hids.get_inj_iff).mp hget
          exact heq2 (by simpa using congrArg Fin.val hfin)
        have hL : ((g.members.getD (ipk.1 % g.members.length) { id := "" }).id
            == (g.members.getD j { id := "" }).id) = false :=
          beq_eq_false_iff_ne.mpr hne
        have hR : ((ipk.1 % g.members.length : Nat) == j) = false :=
          beq_eq_false_iff_ne.mpr heq2
        rw [hL, hR]
    rw [hfun]
    have henum : (allPartKeys topics).enum.countP
          (fun ipk => ipk.1 % g.members.length == j)
        = (List.range (allPartKeys topics).length).countP
            (fun i => i % g.members.length == j) := by
      rw [← List.enum_map_fst (allPartKeys topics), List.countP_map]
      rfl
    rw [henum, countP_range_mod g.members.length j hmpos hj]
    by_cases hind : j < (allPartKeys topics).length % g.members.length
    · right
      rw [ceilDiv_of_mod_pos hmpos (by omega)]
      rw [if_pos hind]
    · left
      rw [if_neg hind, Nat.add_zero]

theorem rebalanceGroup_fairness_witness :
    (allPartKeys rebWitnessTopics).Nodup ∧
    (rebWitnessGroup.members.map Consumer.id).Nodup ∧
    ((rebWitnessGroup.members = [] →
        (rebalanceGroup rebWitnessGroup rebWitnessTopics).assignments = []) ∧
     (rebWitnessGroup.members ≠ [] →
       ((rebalanceGroup rebWitnessGroup rebWitnessTopics).assignments.map Prod.fst
          = allPartKeys rebWitnessTopics) ∧
       (∀ (i : Nat) (h : i < (allPartKeys rebWitnessTopics).length),
         getKey (rebalanceGroup rebWitnessGroup rebWitnessTopics).assignments
             ((allPartKeys rebWitnessTopics)[i])
           = some ((rebWitnessGroup.members.getD
               (i % rebWitnessGroup.members.length) { id := "" }).id)) ∧
       (∀ j, j < rebWitnessGroup.members.length →
         ((rebalanceGroup rebWitnessGroup rebWitnessTopics).assignments.countP
             (fun e => e.2 == (rebWitnessGroup.members.getD j { id := "" }).id)
           = (allPartKeys rebWitnessTopics).length
               / rebWitnessGroup.members.length ∨
          (rebalanceGroup rebWitnessGroup rebWitnessTopics).assignments.countP
             (fun e => e.2 == (rebWitnessGroup.members.getD j { id := "" }).id)
           = ((allPartKeys rebWitnessTopics).length
               + rebWitnessGroup.members.length - 1)
               / rebWitnessGroup.members.length)))) :=
  ⟨by decide, by decide,
   rebalanceGroup_fairness rebWitnessGroup rebWitnessTopics (by decide) (by decide)⟩

/-! The consume step, one partition key at a time. -/

lemma allPairs_keys (topics : List Topic) :
    (allPairs topics).map (fun tp => partitionKey tp.1 tp.2.id)
      = allPartKeys topics := by
  unfold allPairs allPartKeys
  rw [List.map_flatten, List.map_map]
  congr 1
  apply List.map_congr_left
  intro t _
  show (t.partitions.map (fun p => (t.name, p))).map (fun tp => partitionKey tp.1 tp.2.id)
      = t.partitions.map (fun p => partitionKey t.name p.id)
  rw [List.map_map]
  rfl

lemma consumeOnce_offsets (g : ConsumerGroup) (topics : List Topic) :
    (consumeOnce g topics).offsets
      = (allPairs topics).foldl
          (fun offs tp => consumePart g.assignments tp.1 tp.2 offs) g.offsets := by
  show topics.foldl (fun offs t =>
      t.partitions.foldl (fun offs p => consumePart g.assignments t.name p offs) offs)
      g.offsets = _
  unfold allPairs
  generalize g.offsets = init
  induction topics generalizing init with
  | nil => rfl
  | cons t ts ih =>
    rw [List.foldl_cons, ih, List.map_cons, List.flatten_cons, List.foldl_append,
      List.foldl_map]

lemma consumePart_getKey_ne (asg : Record String) (tname : String) (p : Partition)
    (offs : Record Nat) (k : String) (hne : k ≠ partitionKey tname p.id) :
    getKey (consumePart asg tname p offs) k = getKey offs k := by
  simp only [consumePart]
  cases getKey asg (partitionKey tname p.id) with
  | none => rfl
  | some a =>
    dsimp only
    by_cases ha : (a == "") = true
    · rw [if_pos ha]
    · rw [if_neg ha]
      by_cases hlt : (getKey offs (partitionKey tname p.id)).getD 0 < p.endOffset
      · rw [if_pos hlt]
        exact getKey_setKey_ne offs (partitionKey tname p.id) k _ hne
      · rw [if_neg hlt]

lemma consumePart_getKey_self (asg : Record String) (tname : String) (p : Partition)
    (offs : Record Nat) :
    getKey (consumePart asg tname p offs) (partitionKey tname p.id)
      = stepVal (getKey asg (partitionKey tname p.id))
          (getKey offs (partitionKey tname p.id)) p.endOffset := by
  simp only [consumePart, stepVal]
  cases getKey asg (partitionKey tname p.id) with
  | none => rfl
  | some a =>
    dsimp only
    by_cases ha : (a == "") = true
    · rw [if_pos ha, if_pos ha]
    · rw [if_neg ha, if_neg ha]
      by_cases hlt : (getKey offs (partitionKey tname p.id)).getD 0 < p.endOffset
      · rw [if_pos hlt, if_pos hlt]
        exact getKey_setKey_self offs (partitionKey tname p.id) _
      · rw [if_neg hlt, if_neg hlt]

lemma consume_foldl_spec (asg : Record String) :
    ∀ (pairs : List (String × Partition)) (offs : Record Nat),
      (pairs.map (fun tp => partitionKey tp.1 tp.2.id)).Nodup →
      (∀ tp ∈ pairs,
        getKey (pairs.foldl (fun o tp => consumePart asg tp.1 tp.2 o) offs)
            (partitionKey tp.1 tp.2.id)
          = stepVal (getKey asg (partitionKey tp.1 tp.2.id))
              (getKey offs (partitionKey tp.1 tp.2.id)) tp.2.endOffset) ∧
      (∀ k, k ∉ pairs.map (fun tp => partitionKey tp.1 tp.2.id) →
        getKey (pairs.foldl (fun o tp => consumePart asg tp.1 tp.2 o) offs) k
          = getKey offs k) := by
  intro pairs
  induction pairs with
  | nil => exact fun offs _ => ⟨by simp, fun k _ => rfl⟩
  | cons e es ih =>
    intro offs hnd
    rw [List.map_cons, List.nodup_cons] at hnd
    have hnd2 := hnd
    obtain ⟨ih1, ih2⟩ := ih (consumePart asg e.1 e.2 offs) hnd2.2
    constructor
    · intro tp htp
      rw [List.foldl_cons]
      rcases List.mem_cons.mp htp with heq | hmem
      · subst heq
        rw [ih2 _ hnd2.1]
        exact consumePart_getKey_self asg tp.1 tp.2 offs
      · have hne : partitionKey tp.1 tp.2.id ≠ partitionKey e.1 e.2.id := by
          intro hcontra
          exact hnd2.1 (hcontra ▸ List.mem_map_of_mem
            (fun tp => partitionKey tp.1 tp.2.id) hmem)
        rw [ih1 tp hmem, consumePart_getKey_ne asg e.1 e.2 offs _ hne]
    · intro k hk
      have hk1 : k ≠ partitionKey e.1 e.2.id := by
        intro hcontra
        exact hk (by rw [hcontra]; simp)
      have hk2 : k ∉ es.map (fun tp => partitionKey tp.1 tp.2.id) := by
        intro hcontra
        exact hk (by simp [hcontra])
      rw [List.foldl_cons, ih2 k hk2, consumePart_getKey_ne asg e.1 e.2 offs k hk1]

lemma mem_allPairs {topics : List Topic} {t : Topic} {p : Partition}
    (ht : t ∈ topics) (hp : p ∈ t.partitions) : (t.name, p) ∈ allPairs topics := by
  unfold allPairs
  rw [List.mem_flatten]
  exact ⟨t.partitions.map (fun p => (t.name, p)),
    List.mem_map_of_mem _ ht, List.mem_map_of_mem _ hp⟩

lemma stepVal_ge (a : Option String) (cur : Option Nat) (e : Nat) :
    cur.getD 0 ≤ (stepVal a cur e).getD 0 := by
  unfold stepVal
  cases a with
  | none => exact Nat.le_refl _
  | some s =>
    dsimp only
    by_cases hs : (s == "") = true
    · rw [if_pos hs]
    · rw [if_neg hs]
      by_cases hlt : cur.getD 0 < e
      · rw [if_pos hlt]
        exact Nat.le_succ _
      · rw [if_neg hlt]

lemma stepVal_le (a : Option String) (cur : Option Nat) (e : Nat) :
    (stepVal a cur e).getD 0 ≤ max (cur.getD 0) e := by
  unfold stepVal
  cases a with
  | none => exact le_max_left _ _
  | some s =>
    dsimp only
    by_cases hs : (s == "") = true
    · rw [if_pos hs]
      exact le_max_left _ _
    · rw [if_neg hs]
      by_cases hlt : cur.getD 0 < e
      · rw [if_pos hlt]
        exact le_max_of_le_right hlt
      · rw [if_neg hlt]
        exact le_max_left _ _

/-- C6.  One consume step: every enumerated partition whose key has an
assignment and whose committed offset (default 0) is strictly below the
partition's end offset gets exactly `+1`; every other key is unchanged;
hence committed offsets never decrease and never move above the
partition's current end offset. -/
theorem consumeOnce_step_spec (g : ConsumerGroup) (topics : List Topic)
    (hnd : (allPartKeys topics).Nodup)
    (hvals : ∀ e ∈ g.assignments, e.2 ≠ "") :
    (∀ t ∈ topics, ∀ p ∈ t.partitions,
      getKey (consumeOnce g topics).offsets (partitionKey t.name p.id)
        = (match getKey g.assignments (partitionKey t.name p.id) with
           | none => getKey g.offsets (partitionKey t.name p.id)
           | some _ =>
             if (getKey g.offsets (partitionKey t.name p.id)).getD 0 < p.endOffset
             then some ((getKey g.offsets (partitionKey t.name p.id)).getD 0 + 1)
             else getKey g.offsets (partitionKey t.name p.id))) ∧
    (∀ k, k ∉ allPartKeys topics →
      getKey (consumeOnce g topics).offsets k = getKey g.offsets k) ∧
    (∀ k, (getKey g.offsets k).getD 0
      ≤ (getKey (consumeOnce g topics).offsets k).getD 0) ∧
    (∀ t ∈ topics, ∀ p ∈ t.partitions,
      (getKey (consumeOnce g topics).offsets (partitionKey t.name p.id)).getD 0
        ≤ max ((getKey g.offsets (partitionKey t.name p.id)).getD 0) p.endOffset) := by
  have hndp : ((allPairs topics).map (fun tp => partitionKey tp.1 tp.2.id)).Nodup := by
    rw [allPairs_keys]
    exact hnd
  obtain ⟨hself, hother⟩ := consume_foldl_spec g.assignments (allPairs topics)
    g.offsets hndp
  have hchar : ∀ t ∈ topics, ∀ p ∈ t.partitions,
      getKey (consumeOnce g topics).offsets (partitionKey t.name p.id)
        = stepVal (getKey g.assignments (partitionKey t.name p.id))
            (getKey g.offsets (partitionKey t.name p.id)) p.endOffset := by
    intro t ht p hp
    rw [consumeOnce_offsets]
    exact hself (t.name, p) (mem_allPairs ht hp)
  have hstep_match : ∀ (pk : String) (endO : Nat),
      stepVal (getKey g.assignments pk) (getKey g.offsets pk) endO
        = (match getKey g.assignments pk with
           | none => getKey g.offsets pk
           | some _ =>
             if (getKey g.offsets pk).getD 0 < endO
             then some ((getKey g.offsets pk).getD 0 + 1)
             else getKey g.offsets pk) := by
    intro pk endO
    unfold stepVal
    cases hga : getKey g.assignments pk with
    | none => rfl
    | some a =>
      have hmem : ∃ e, g.assignments.find? (fun e => e.1 == pk) = some e ∧ e.2 = a := by
        unfold getKey at hga
        cases hf : g.assignments.find? (fun e => e.1 == pk) with
        | none => rw [hf] at hga; exact Option.noConfusion hga
        | some e =>
          rw [hf, Option.map_some'] at hga
          exact ⟨e, rfl, by injection hga⟩
      obtain ⟨e, hf, he⟩ := hmem
      have ha : a ≠ "" := by
        rw [← he]
        exact hvals e (List.mem_of_find?_eq_some hf)
      have ha2 : (a == "") = false := beq_eq_false_iff_ne.mpr ha
      dsimp only
      rw [if_neg (show ¬((a == "") = true) by simp [ha2])]
  refine ⟨?_, ?_, ?_, ?_⟩
  · intro t ht p hp
    rw [hchar t ht p hp, hstep_match]
  · intro k hk
    rw [consumeOnce_offsets]
    rw [← allPairs_keys topics] at hk
    exact hother k hk
  · intro k
    by_cases hk : k ∈ allPartKeys topics
    · rw [← allPairs_keys] at hk
      obtain ⟨tp, htp, rfl⟩ := List.mem_map.mp hk
      rw [consumeOnce_offsets]
      rw [hself tp htp]
      exact stepVal_ge _ _ _
    · rw [← allPairs_keys topics] at hk
      rw [consumeOnce_offsets, hother _ hk]
  · intro t ht p hp
    rw [hchar t ht p hp]
    exact stepVal_le _ _ _

theorem consumeOnce_step_spec_witness :
    (allPartKeys conWitnessTopics).Nodup ∧
    (∀ e ∈ conWitnessGroup.assignments, e.2 ≠ "") ∧
    ((∀ t ∈ conWitnessTopics, ∀ p ∈ t.partitions,
      getKey (consumeOnce conWitnessGroup conWitnessTopics).offsets
          (partitionKey t.name p.id)
        = (match getKey conWitnessGroup.assignments (partitionKey t.name p.id) with
           | none => getKey conWitnessGroup.offsets (partitionKey t.name p.id)
           | some _ =>
             if (getKey conWitnessGroup.offsets (partitionKey t.name p.id)).getD 0
                 < p.endOffset
             then some ((getKey conWitnessGroup.offsets
                 (partitionKey t.name p.id)).getD 0 + 1)
             else getKey conWitnessGroup.offsets (partitionKey t.name p.id))) ∧
    (∀ k, k ∉ allPartKeys conWitnessTopics →
      getKey (consumeOnce conWitnessGroup conWitnessTopics).offsets k
        = getKey conWitnessGroup.offsets k) ∧
    (∀ k, (getKey conWitnessGroup.offsets k).getD 0
      ≤ (getKey (consumeOnce conWitnessGroup conWitnessTopics).offsets k).getD 0) ∧
    (∀ t ∈ conWitnessTopics, ∀ p ∈ t.partitions,
      (getKey (consumeOnce conWitnessGroup conWitnessTopics).offsets
          (partitionKey t.name p.id)).getD 0
        ≤ max ((getKey conWitnessGroup.offsets (partitionKey t.name p.id)).getD 0)
            p.endOffset)) :=
  ⟨by decide, by decide,
   consumeOnce_step_spec conWitnessGroup conWitnessTopics (by decide) (by decide)⟩

/-! Surgical list updates used by `produce`. -/

lemma modifyIdx_length {α : Type} (f : α → α) :
    ∀ (n : Nat) (l : List α), (modifyIdx f n l).length = l.length := by
  intro n l
  induction l generalizing n with
  | nil => cases n <;> rfl
  | cons x xs ih =>
    cases n with
    | zero => rfl
    | succ m => simpa [modifyIdx] using ih m

lemma getElem?_modifyIdx_self {α : Type} (f : α → α) :
    ∀ (n : Nat) (l : List α), (modifyIdx f n l)[n]? = (l[n]?).map f := by
  intro n l
  induction l generalizing n with
  | nil => cases n <;> rfl
  | cons x xs ih =>
    cases n with
    | zero => simp [modifyIdx]
    | succ m =>
      show (x :: modifyIdx f m xs)[m + 1]? = ((x :: xs)[m + 1]?).map f
      rw [List.getElem?_cons_succ, List.getElem?_cons_succ]
      exact ih m

lemma getElem?_modifyIdx_ne {α : Type} (f : α → α) :
    ∀ (n i : Nat) (l : List α), i ≠ n → (modifyIdx f n l)[i]? = l[i]? := by
  intro n i l
  induction l generalizing n i with
  | nil => intro _; cases n <;> rfl
  | cons x xs ih =>
    intro hne
    cases n with
    | zero =>
      cases i with
      | zero => exact absurd rfl hne
      | succ m =>
        show (f x :: xs)[m + 1]? = (x :: xs)[m + 1]?
        rw [List.getElem?_cons_succ, List.getElem?_cons_succ]
    | succ m =>
      cases i with
      | zero =>
        show (x :: modifyIdx f m xs)[0]? = (x :: xs)[0]?
        rw [List.getElem?_cons_zero, List.getElem?_cons_zero]
      | succ k =>
        show (x :: modifyIdx f m xs)[k + 1]? = (x :: xs)[k + 1]?
        rw [List.getElem?_cons_succ, List.getElem?_cons_succ]
        exact ih m k (fun h => hne (by rw [h]))

lemma map_modifyIdx {α β : Type} (g : α → β) (f : α → α)
    (hgf : ∀ a, g (f a) = g a) :
    ∀ (n : Nat) (l : List α), (modifyIdx f n l).map g = l.map g := by
  intro n l
  induction l generalizing n with
  | nil => cases n <;> rfl
  | cons x xs ih =>
    cases n with
    | zero => simp [modifyIdx, hgf]
    | succ m => simpa [modifyIdx] using ih m

lemma map_modifyFirst {α β : Type} (g : α → β) (q : α → Bool) (f : α → α)
    (hgf : ∀ a, g (f a) = g a) :
    ∀ (l : List α), (modifyFirst q f l).map g = l.map g := by
  intro l
  induction l with
  | nil => rfl
  | cons x xs ih =>
    by_cases hq : q x = true
    · unfold modifyFirst
      rw [if_pos hq]
      simp [hgf]
    · unfold modifyFirst
      rw [if_neg hq]
      simpa using ih

lemma find?_modifyFirst {α : Type} (q : α → Bool) (f : α → α) :
    ∀ (l : List α) (x : α), l.find? q = some x →
      ∃ j, j < l.length ∧ l[j]? = some x ∧
        (modifyFirst q f l)[j]? = some (f x) ∧
        ∀ i, i ≠ j → (modifyFirst q f l)[i]? = l[i]? := by
  intro l
  induction l with
  | nil => intro x h; exact absurd h (by simp)
  | cons a as ih =>
    intro x h
    by_cases hq : q a = true
    · rw [List.find?_cons_of_pos _ hq] at h
      have hax : a = x := by injection h
      subst hax
      refine ⟨0, by simp, by rw [List.getElem?_cons_zero], ?_, ?_⟩
      · show (modifyFirst q f (a :: as))[0]? = some (f a)
        unfold modifyFirst
        rw [if_pos hq, List.getElem?_cons_zero]
      · intro i hi
        unfold modifyFirst
        rw [if_pos hq]
        cases i with
        | zero => exact absurd rfl hi
        | succ m =>
          rw [List.getElem?_cons_succ, List.getElem?_cons_succ]
    · rw [List.find?_cons_of_neg _ hq] at h
      obtain ⟨j, hjl, hj1, hj2, hj3⟩ := ih x h
      refine ⟨j + 1, by simpa using hjl, ?_, ?_, ?_⟩
      · rw [List.getElem?_cons_succ]
        exact hj1
      · unfold modifyFirst
        rw [if_neg hq, List.getElem?_cons_succ]
        exact hj2
      · intro i hi
        unfold modifyFirst
        rw [if_neg hq]
        cases i with
        | zero =>
          rw [List.getElem?_cons_zero, List.getElem?_cons_zero]
        | succ m =>
          have hm : m ≠ j := fun hmj => hi (by rw [hmj])
          rw [List.getElem?_cons_succ, List.getElem?_cons_succ]
          exact hj3 m hm

lemma getD_of_getElem?_some {α : Type} {l : List α} {i : Nat} {x : α} (d : α)
    (h : l[i]? = some x) : l.getD i d = x := by
  rw [List.getD_eq_getElem?_getD, h]
  rfl

lemma produce_not_found (c : Cluster) (tn : String) (key : List Nat) (rnd : Nat)
    (h : c.topics.find? (fun t => t.name == tn) = none) :
    produce c tn key rnd = c := by
  unfold produce
  rw [h]

lemma produce_found (c : Cluster) (tn : String) (key : List Nat) (rnd : Nat)
    (t : Topic) (h : c.topics.find? (fun t => t.name == tn) = some t) :
    produce c tn key rnd = { c with topics := modifyFirst (fun x => x.name == tn) (bumpTopicAt (producePid key t.partitions.length rnd)) c.topics } := by
  unfold produce
  rw [h]

/-- C7.  `produce` on a missing topic is a strict no-op; on an existing
topic (with at least one partition, and an in-range random draw when the
key is empty) it bumps the end offset of exactly one partition of that
topic by one and changes nothing else: not the brokers, not any leader,
offline flag, replica list, and no other end offset. -/
theorem produce_effect_frame (c : Cluster) (tn : String) (key : List Nat) (rnd : Nat) :
    (c.topics.find? (fun t => t.name == tn) = none → produce c tn key rnd = c) ∧
    (∀ t, c.topics.find? (fun t => t.name == tn) = some t →
      t.partitions ≠ [] →
      (key = [] → rnd < t.partitions.length) →
      stripOffsets (produce c tn key rnd) = stripOffsets c ∧
      (produce c tn key rnd).brokers = c.brokers ∧
      (∃ j pid, j < c.topics.length ∧
        (∃ tj, c.topics[j]? = some tj ∧ tj.name = tn) ∧
        pid < t.partitions.length ∧
        endOffsetAt (produce c tn key rnd) j pid = endOffsetAt c j pid + 1 ∧
        (∀ j' i', ¬(j' = j ∧ i' = pid) →
          endOffsetAt (produce c tn key rnd) j' i' = endOffsetAt c j' i'))) := by
  constructor
  · exact produce_not_found c tn key rnd
  · intro t hfind hne hrnd
    have hlen : 0 < t.partitions.length := List.length_pos.mpr hne
    have hpid : producePid key t.partitions.length rnd < t.partitions.length := by
      unfold producePid
      by_cases hkey : (key.length != 0) = true
      · rw [if_pos hkey]
        exact Nat.mod_lt _ hlen
      · rw [if_neg hkey]
        apply hrnd
        rw [← List.length_eq_zero]
        simpa using hkey
    have hprod := produce_found c tn key rnd t hfind
    obtain ⟨j, hjlen, hj1, hj2, hj3⟩ := find?_modifyFirst (fun x => x.name == tn)
      (bumpTopicAt (producePid key t.partitions.length rnd)) c.topics t hfind
    have hname : t.name = tn := by
      simpa using List.find?_some hfind
    refine ⟨?_, by rw [hprod], j, producePid key t.partitions.length rnd,
      hjlen, ⟨t, hj1, hname⟩, hpid, ?_, ?_⟩
    · rw [hprod]
      unfold stripOffsets
      refine clusterExt rfl ?_
      show (modifyFirst (fun x => x.name == tn) _ c.topics).map _ = _
      apply map_modifyFirst
      intro tt
      show ({ name := tt.name,
              partitions := (modifyIdx bumpEndOffset
                (producePid key t.partitions.length rnd) tt.partitions).map
                  (fun p => { p with endOffset := 0 }),
              color := tt.color : Topic })
          = { name := tt.name,
              partitions := tt.partitions.map (fun p => { p with endOffset := 0 }),
              color := tt.color }
      refine topicExt rfl ?_ rfl
      show (modifyIdx bumpEndOffset _ tt.partitions).map
          (fun p => { p with endOffset := 0 })
        = tt.partitions.map (fun p => { p with endOffset := 0 })
      apply map_modifyIdx
      intro p
      rfl
    · rw [hprod]
      show (((modifyFirst (fun x => x.name == tn) (bumpTopicAt (producePid key t.partitions.length rnd)) c.topics).getD j { name := "", partitions := [], color := "" }).partitions.getD (producePid key t.partitions.length rnd) { id := 0, topic := "", leader := none, replicas := [], offline := false, endOffset := 0 }).endOffset = endOffsetAt c j (producePid key t.partitions.length rnd) + 1
      rw [getD_of_getElem?_some _ hj2]
      show ((modifyIdx bumpEndOffset (producePid key t.partitions.length rnd) t.partitions).getD (producePid key t.partitions.length rnd) { id := 0, topic := "", leader := none, replicas := [], offline := false, endOffset := 0 }).endOffset = endOffsetAt c j (producePid key t.partitions.length rnd) + 1
      rw [List.getD_eq_getElem?_getD, getElem?_modifyIdx_self,
        List.getElem?_eq_getElem hpid]
      unfold endOffsetAt
      rw [getD_of_getElem?_some _ hj1, List.getD_eq_getElem?_getD,
        List.getElem?_eq_getElem hpid]
      rfl
    · intro j' i' hnot
      rw [hprod]
      by_cases hj' : j' = j
      · subst hj'
        have hi' : i' ≠ producePid key t.partitions.length rnd := by
          intro hcontra
          exact hnot ⟨rfl, hcontra⟩
        show (((modifyFirst (fun x => x.name == tn) (bumpTopicAt (producePid key t.partitions.length rnd)) c.topics).getD j' { name := "", partitions := [], color := "" }).partitions.getD i' { id := 0, topic := "", leader := none, replicas := [], offline := false, endOffset := 0 }).endOffset = endOffsetAt c j' i'
        rw [getD_of_getElem?_some _ hj2]
        show ((modifyIdx bumpEndOffset (producePid key t.partitions.length rnd) t.partitions).getD i' { id := 0, topic := "", leader := none, replicas := [], offline := false, endOffset := 0 }).endOffset = endOffsetAt c j' i'
        rw [List.getD_eq_getElem?_getD, getElem?_modifyIdx_ne _ _ _ _ hi',
          ← List.getD_eq_getElem?_getD]
        unfold endOffsetAt
        rw [getD_of_getElem?_some _ hj1]
      · show (((modifyFirst (fun x => x.name == tn) (bumpTopicAt (producePid key t.partitions.length rnd)) c.topics).getD j' { name := "", partitions := [], color := "" }).partitions.getD i' { id := 0, topic := "", leader := none, replicas := [], offline := false, endOffset := 0 }).endOffset = endOffsetAt c j' i'
        rw [List.getD_eq_getElem?_getD (modifyFirst (fun x => x.name == tn) (bumpTopicAt (producePid key t.partitions.length rnd)) c.topics) j', hj3 j' hj', ← List.getD_eq_getElem?_getD]
        rfl

theorem produce_effect_frame_witness :
    prodWitnessCluster.topics.find? (fun x => x.name == "t")
        = some (prodWitnessCluster.topics.getD 0
            { name := "", partitions := [], color := "" }) ∧
    (prodWitnessCluster.topics.getD 0
        { name := "", partitions := [], color := "" }).partitions ≠ [] ∧
    (stripOffsets (produce prodWitnessCluster "t" [117, 115, 101, 114, 45, 52, 50] 0)
        = stripOffsets prodWitnessCluster ∧
     (produce prodWitnessCluster "t" [117, 115, 101, 114, 45, 52, 50] 0).brokers
        = prodWitnessCluster.brokers ∧
     (∃ j pid, j < prodWitnessCluster.topics.length ∧
       (∃ tj, prodWitnessCluster.topics[j]? = some tj ∧ tj.name = "t") ∧
       pid < (prodWitnessCluster.topics.getD 0
           { name := "", partitions := [], color := "" }).partitions.length ∧
       endOffsetAt (produce prodWitnessCluster "t" [117, 115, 101, 114, 45, 52, 50] 0)
           j pid
         = endOffsetAt prodWitnessCluster j pid + 1 ∧
       (∀ j' i', ¬(j' = j ∧ i' = pid) →
         endOffsetAt (produce prodWitnessCluster "t" [117, 115, 101, 114, 45, 52, 50] 0)
             j' i'
           = endOffsetAt prodWitnessCluster j' i'))) :=
  ⟨by decide, by decide,
   (produce_effect_frame prodWitnessCluster "t" [117, 115, 101, 114, 45, 52, 50] 0).2
     (prodWitnessCluster.topics.getD 0 { name := "", partitions := [], color := "" })
     (by decide) (by decide) (fun h => absurd h (by decide))⟩

end Kafka
